import Mathlib

/-!
Verification of the "optimizer step in backward" tutorial
(`src/intermediate_source/optimizer_step_in_backward_tutorial.py`).

The tutorial contrasts a baseline training loop (shared `Adam` optimizer,
explicit `optimizer.step()` / `optimizer.zero_grad()` after `backward()`)
with a fused variant in which a per-parameter optimizer is stored in
`optimizer_dict` and applied from a `register_post_accumulate_grad_hook`
callback `optimizer_hook` the moment each parameter's gradient has finished
accumulating.

We embed the orchestration shallowly:

* a parameter is a value together with an optional gradient accumulator
  (`none` models a cleared / never-populated `.grad` field);
* per-parameter optimizer auxiliary state (Adam's moment estimates,
  abstracted to a single `Int`) lives in a list parallel to the parameters;
* the update rule itself is an arbitrary function
  `upd : value → grad → aux → value × aux` (the tutorial uses `Adam`, but
  nothing in the claims depends on the concrete arithmetic — only on a
  deterministic, per-parameter, coupling-free rule, which is what
  `torch.optim.Adam` per singleton parameter list is);
* gradients produced by `backward()` are given by an arbitrary function of
  the batch input and of the parameter values captured at forward time
  (autograd differentiates the recorded forward graph);
* `optimizer_dict` is an association list from parameter index to the list
  of parameters owned by the dedicated optimizer instance, mirroring
  `{p: torch.optim.Adam([p], foreach=False) for p in model.parameters()}`;
* `optimizer_hook` performs the two unguarded dictionary subscripts of the
  source (`optimizer_dict[parameter].step()`,
  `optimizer_dict[parameter].zero_grad()`), returning `Except` so that a
  missing key is a `KeyError`;
* the ordering claims are settled over operation traces (`Op` lists)
  generated from the same program structure, and the memory-snapshot
  bracketing is settled over a small recorder state machine
  (`_record_memory_history` / `_snapshot` / `pickle.dump`).
-/

/-- One model parameter: its value and its gradient accumulator.
`grad = none` models a cleared (or never populated) `.grad` field. -/
structure ParamState where
  value : Int
  grad : Option Int
deriving Repr, DecidableEq

/-- The mutable world threaded through training: parameter states, the
per-parameter optimizer auxiliary state (parallel to `params`), and the
global `optimizer_dict` (an association list from parameter index to the
parameter list owned by the dedicated optimizer instance). -/
structure World where
  params : List ParamState
  aux : List Int
  dict : List (Nat × List Nat)
deriving Repr, DecidableEq

/-- An abstract per-parameter update rule: current value, accumulated
gradient and auxiliary optimizer state produce the new value and new
auxiliary state.  This is the semantics of one `Adam.step()` on a single
parameter, left abstract. -/
def UpdRule : Type := Int → Int → Int → Int × Int

/-- An abstract gradient oracle: batch input and the parameter values
recorded at forward time determine the gradient contribution of the pass
for each parameter index. -/
def GradFn : Type := Int → List Int → Nat → Int

/-- Replace the element at position `i` (no-op out of range). -/
def listModify (f : α → α) : Nat → List α → List α
  | _, [] => []
  | 0, a :: as => f a :: as
  | n + 1, a :: as => a :: listModify f n as

/-- Map with the index available. -/
def listMapIdxFrom (f : Nat → α → β) : Nat → List α → List β
  | _, [] => []
  | i, a :: as => f i a :: listMapIdxFrom f (i + 1) as

/-- Python dict lookup `d[p]` on the association list. -/
def lookupDict (d : List (Nat × List Nat)) (p : Nat) : Option (List Nat) :=
  match d with
  | [] => none
  | (k, v) :: rest => if k = p then some v else lookupDict rest p

/-- The mapping `optimizer_dict = {p: torch.optim.Adam([p], foreach=False)
for p in model.parameters()}`: one dedicated optimizer per parameter,
owning exactly the singleton parameter list `[p]`. -/
def optimizer_dict (n : Nat) : List (Nat × List Nat) :=
  (List.range n).map (fun p => (p, [p]))

/-- One optimizer `step()` restricted to parameter `i`: if the parameter
exists and its gradient accumulator is populated, apply the update rule to
its value and auxiliary state; a parameter whose `.grad` is `none` is
skipped, as `torch.optim` optimizers do. -/
def stepParam (upd : UpdRule) (w : World) (i : Nat) : World :=
  match w.params.get? i, w.aux.get? i with
  | some ps, some a =>
    match ps.grad with
    | some g =>
      let r := upd ps.value g a
      { w with
        params := listModify (fun p => { p with value := r.1 }) i w.params
        aux := listModify (fun _ => r.2) i w.aux }
    | none => w
  | _, _ => w

/-- One optimizer `zero_grad()` restricted to parameter `i`: the gradient
accumulator is released (`set_to_none` semantics). -/
def zeroGradParam (w : World) (i : Nat) : World :=
  { w with params := listModify (fun p => { p with grad := none }) i w.params }

/-- The call `optimizer.step()` of an optimizer owning the parameters
`owned`. -/
def optStep (upd : UpdRule) (owned : List Nat) (w : World) : World :=
  owned.foldl (stepParam upd) w

/-- The call `optimizer.zero_grad()` of an optimizer owning the parameters
`owned`. -/
def optZeroGrad (owned : List Nat) (w : World) : World :=
  owned.foldl zeroGradParam w

/-- Accumulate a gradient contribution `g` into a parameter's accumulator
(a fresh accumulator starts from zero). -/
def accumGrad (g : Int) (p : ParamState) : ParamState :=
  { p with grad := some (p.grad.getD 0 + g) }

/-- The call `loss.sum().backward()` of the baseline loop: every parameter's
gradient accumulator receives the contribution computed from the values
recorded at forward time. -/
def backwardAll (gradOf : GradFn) (input : Int) (w : World) : World :=
  let vals := w.params.map (fun p => p.value)
  { w with
    params := listMapIdxFrom (fun i p => accumGrad (gradOf input vals i) p) 0 w.params }

/-- The hook `optimizer_hook(parameter)` of the source:
`optimizer_dict[parameter].step()` then
`optimizer_dict[parameter].zero_grad()` — two unguarded dictionary
subscripts; a key miss raises `KeyError` and nothing is mutated. -/
def optimizer_hook (upd : UpdRule) (w : World) (p : Nat) : Except String World :=
  match lookupDict w.dict p with
  | none => .error "KeyError"
  | some owned =>
    let w1 := optStep upd owned w
    match lookupDict w1.dict p with
    | none => .error "KeyError"
    | some owned2 => .ok (optZeroGrad owned2 w1)

/-- The baseline `train(model, optimizer)` body: fake batch, forward,
`backward()`, shared `optimizer.step()`, shared `optimizer.zero_grad()`.
The shared optimizer was built as `Adam(model.parameters())`, so it owns
every parameter index. -/
def train (upd : UpdRule) (gradOf : GradFn) (input : Int) (w : World) : World :=
  let w1 := backwardAll gradOf input w
  let w2 := optStep upd (List.range w.params.length) w1
  optZeroGrad (List.range w.params.length) w2

/-- One visit of the fused backward pass to leaf parameter `p`: autograd
finishes accumulating `p`'s gradient (computed from the values `vals`
recorded at forward time) and then fires the registered
post-accumulate-grad hook `optimizer_hook` on `p`. -/
def fusedVisit (upd : UpdRule) (gradOf : GradFn) (input : Int) (vals : List Int)
    (w : World) (p : Nat) : Except String World :=
  let w1 := { w with params := listModify (accumGrad (gradOf input vals p)) p w.params }
  optimizer_hook upd w1 p

/-- The call `loss.sum().backward()` of the fused design: the engine visits
the leaf parameters in its traversal order `ord`; each visit accumulates
that parameter's gradient (from the forward-time values) and fires the
registered hook. -/
def fusedBackward (upd : UpdRule) (gradOf : GradFn) (input : Int) (ord : List Nat)
    (w : World) : Except String World :=
  let vals := w.params.map (fun p => p.value)
  ord.foldlM (fusedVisit upd gradOf input vals) w

/-- The fused `train(model)` body (no optimizer argument): fake batch,
forward, `backward()` — the commented-out `optimizer.step()` and
`optimizer.zero_grad()` are gone. -/
def trainFused (upd : UpdRule) (gradOf : GradFn) (input : Int) (ord : List Nat)
    (w : World) : Except String World :=
  fusedBackward upd gradOf input ord w

/-- The fused-design setup performed once before training begins: build
`optimizer_dict` over the model's parameters.  (Hook registration is
reflected in `fusedBackward` firing the hook at every visited leaf.) -/
def setupFused (n : Nat) (w : World) : World :=
  { w with dict := optimizer_dict n }

/-- The baseline loop `for _ in range(3): train(model, optimizer)`,
generalized to `N` iterations starting at batch index `k`. -/
def trainLoop (upd : UpdRule) (gradOf : GradFn) (batch : Nat → Int) :
    Nat → Nat → World → World
  | _, 0, w => w
  | k, Nat.succ m, w => trainLoop upd gradOf batch (k + 1) m (train upd gradOf (batch k) w)

/-- The fused loop `for _ in range(3): train(model)`, generalized to `N`
iterations starting at batch index `k`. -/
def fusedLoop (upd : UpdRule) (gradOf : GradFn) (batch : Nat → Int) (ord : List Nat) :
    Nat → Nat → World → Except String World
  | _, 0, w => .ok w
  | k, Nat.succ m, w =>
    match trainFused upd gradOf (batch k) ord w with
    | .error e => .error e
    | .ok w1 => fusedLoop upd gradOf batch ord (k + 1) m w1

/-! ### Operation traces

For the ordering claims we record the operations each piece of code
performs, tagged with whether the operation is written in the code being
traced (`explicitCall`) or happens as a side effect of a registered hook
firing inside `backward()` (`hookFired`). -/

/-- The observable operations of the tutorial's code. -/
inductive Op where
  | genBatch
  | forwardEval
  | backwardCall
  | lookupOp (p : Nat)
  | stepOp (p : Nat)
  | zeroGradOp (p : Nat)
  | stepShared
  | zeroGradShared
  | recordStart
  | snapshotExtract
  | snapshotDump
  | recordStop
  | alloc (k : Nat)
deriving Repr, DecidableEq

/-- Whether an operation is an optimizer update operation (a `step` or a
`zero_grad`, shared or per-parameter). -/
def isUpdateOp : Op → Bool
  | Op.stepOp _ => true
  | Op.zeroGradOp _ => true
  | Op.stepShared => true
  | Op.zeroGradShared => true
  | _ => false

/-- Origin of a traced operation: written explicitly in the traced code,
or performed by a hook fired by the autograd engine. -/
inductive Origin where
  | explicitCall
  | hookFired
deriving Repr, DecidableEq

/-- The operations `optimizer_hook(parameter)` performs, in order: the
dictionary subscript, `.step()`, the second dictionary subscript,
`.zero_grad()`. -/
def optimizer_hook_ops (p : Nat) : List Op :=
  [Op.lookupOp p, Op.stepOp p, Op.lookupOp p, Op.zeroGradOp p]

/-- Trace of the baseline `train(model, optimizer)` body: batch, forward,
backward, shared `optimizer.step()`, shared `optimizer.zero_grad()`. -/
def trainTrace : List (Origin × Op) :=
  [(Origin.explicitCall, Op.genBatch),
   (Origin.explicitCall, Op.forwardEval),
   (Origin.explicitCall, Op.backwardCall),
   (Origin.explicitCall, Op.stepShared),
   (Origin.explicitCall, Op.zeroGradShared)]

/-- Trace of the fused `train(model)` body: batch, forward, backward; the
hook operations happen inside the backward traversal (order `ord`), not as
statements of the loop body. -/
def fusedTrainTrace (ord : List Nat) : List (Origin × Op) :=
  [(Origin.explicitCall, Op.genBatch),
   (Origin.explicitCall, Op.forwardEval),
   (Origin.explicitCall, Op.backwardCall)]
    ++ ord.flatMap (fun p => (optimizer_hook_ops p).map (fun o => (Origin.hookFired, o)))

/-! ### Memory-recording state machine

Models `torch.cuda.memory._record_memory_history`, `_snapshot()` and
`pickle.dump`, as used at module level around each block of three training
iterations. -/

/-- State of the CUDA memory recorder plus the snapshot object `s` and the
pickle file written by the tutorial. -/
structure RecWorld where
  enabled : Bool
  log : List Nat
  snap : Option (List Nat)
  fileOut : Option (List Nat)
deriving Repr, DecidableEq

/-- Effect of one operation on the recorder state: `recordStart` /
`recordStop` toggle recording, an allocation is appended to the log only
while recording is enabled, `_snapshot()` copies the current log into the
snapshot object, and `pickle.dump` persists the snapshot object to the
file.  Training-side operations do not touch the recorder. -/
def runOp (r : RecWorld) : Op → RecWorld
  | Op.recordStart => { r with enabled := true }
  | Op.recordStop => { r with enabled := false }
  | Op.alloc k => if r.enabled then { r with log := r.log ++ [k] } else r
  | Op.snapshotExtract => { r with snap := some r.log }
  | Op.snapshotDump => { r with fileOut := r.snap }
  | _ => r

/-- Run a list of operations through the recorder. -/
def runOps (r : RecWorld) (ops : List Op) : RecWorld :=
  ops.foldl runOp r

/-- The allocation events performed by the measured training iterations,
abstracted as a list of allocation records. -/
def trainingOps (allocs : List Nat) : List Op :=
  allocs.map Op.alloc

/-- A measured window as written at module level (lines 80–92 and 219–231
of the source): start recording, run the training iterations, extract the
snapshot, dump it to a file, stop recording. -/
def measuredWindow (body : List Op) : List Op :=
  [Op.recordStart] ++ body ++ [Op.snapshotExtract, Op.snapshotDump, Op.recordStop]

/-- The pure effect of one fused backward visit to parameter `p` with
gradient contribution `g`: accumulate, `step()`, `zero_grad()`. -/
def hookVisit (upd : UpdRule) (g : Int) (w : World) (p : Nat) : World :=
  zeroGradParam (stepParam upd { w with params := listModify (accumGrad g) p w.params } p) p

/-- A concrete update rule used to exercise the theorems on closed inputs. -/
def updT : UpdRule := fun v g a => (v - g + a, a + 1)

/-- A concrete gradient oracle used to exercise the theorems on closed
inputs. -/
def gradT : GradFn := fun input vals i => input + vals.getD i 0 + Int.ofNat i

/-- A concrete two-parameter world with the fused-design mapping
installed. -/
def w2T : World :=
  { params := [{ value := 5, grad := some 2 }, { value := 7, grad := none }],
    aux := [1, 3],
    dict := optimizer_dict 2 }

example : listModify (fun n => n + 1) 1 [10, 20, 30] = [10, 21, 30] := by decide

example :
    lookupDict (optimizer_dict 3) 2 = some [2] ∧
      lookupDict (optimizer_dict 3) 3 = none := by decide

/-! ### List-level lemmas -/

theorem listModify_length (f : α → α) (i : Nat) (l : List α) :
    (listModify f i l).length = l.length := by
  induction l generalizing i with
  | nil => cases i <;> rfl
  | cons a as ih =>
    cases i with
    | zero => rfl
    | succ n => simp [listModify, ih]

theorem listModify_get?_ne (f : α → α) (i j : Nat) (l : List α) (h : j ≠ i) :
    (listModify f i l).get? j = l.get? j := by
  induction l generalizing i j with
  | nil => cases i <;> rfl
  | cons a as ih =>
    cases i with
    | zero =>
      cases j with
      | zero => exact absurd rfl h
      | succ m => rfl
    | succ n =>
      cases j with
      | zero => rfl
      | succ m =>
        simpa [listModify] using ih n m (fun hh => h (by simp [hh]))

theorem listModify_get?_eq (f : α → α) (i : Nat) (l : List α) :
    (listModify f i l).get? i = (l.get? i).map f := by
  induction l generalizing i with
  | nil => cases i <;> rfl
  | cons a as ih =>
    cases i with
    | zero => rfl
    | succ n => simpa [listModify] using ih n

theorem listMapIdxFrom_length (f : Nat → α → β) (k : Nat) (l : List α) :
    (listMapIdxFrom f k l).length = l.length := by
  induction l generalizing k with
  | nil => rfl
  | cons a as ih => simp [listMapIdxFrom, ih]

theorem listMapIdxFrom_get? (f : Nat → α → β) (k i : Nat) (l : List α) :
    (listMapIdxFrom f k l).get? i = (l.get? i).map (f (k + i)) := by
  induction l generalizing k i with
  | nil => rfl
  | cons a as ih =>
    cases i with
    | zero => rfl
    | succ m =>
      have := ih (k + 1) m
      simpa [listMapIdxFrom, Nat.add_assoc, Nat.add_comm 1 m] using this

theorem lookupDict_append (d1 d2 : List (Nat × List Nat)) (p : Nat) :
    lookupDict (d1 ++ d2) p =
      match lookupDict d1 p with
      | some v => some v
      | none => lookupDict d2 p := by
  induction d1 with
  | nil => rfl
  | cons kv rest ih =>
    by_cases h : kv.1 = p
    · simp [lookupDict, h]
    · simp [lookupDict, h, ih]

theorem lookupDict_optimizer_dict (n p : Nat) :
    lookupDict (optimizer_dict n) p = if p < n then some [p] else none := by
  induction n with
  | zero => simp [optimizer_dict, lookupDict]
  | succ m ih =>
    have hsplit : optimizer_dict (m + 1) = optimizer_dict m ++ [(m, [m])] := by
      simp [optimizer_dict, List.range_succ]
    rw [hsplit, lookupDict_append, ih]
    by_cases h : p < m
    · simp [h, Nat.lt_succ_of_lt h]
    · by_cases h2 : p = m
      · subst h2
        simp [h, lookupDict, Nat.lt_succ_self]
      · have : ¬ p < m + 1 := by
          intro hc
          rcases Nat.lt_succ_iff_lt_or_eq.mp hc with hc1 | hc2
          · exact h hc1
          · exact h2 hc2
        have hmp : m ≠ p := fun hh => h2 hh.symm
        simp [h, this, lookupDict, hmp]

/-! ### World-level preservation and frame lemmas -/

theorem stepParam_dict (upd : UpdRule) (w : World) (i : Nat) :
    (stepParam upd w i).dict = w.dict := by
  unfold stepParam
  split
  · split <;> rfl
  · rfl

theorem stepParam_params_length (upd : UpdRule) (w : World) (i : Nat) :
    (stepParam upd w i).params.length = w.params.length := by
  unfold stepParam
  split
  · split
    · simp [listModify_length]
    · rfl
  · rfl

theorem stepParam_aux_length (upd : UpdRule) (w : World) (i : Nat) :
    (stepParam upd w i).aux.length = w.aux.length := by
  unfold stepParam
  split
  · split
    · simp [listModify_length]
    · rfl
  · rfl

theorem stepParam_get?_ne (upd : UpdRule) (w : World) (i j : Nat) (h : j ≠ i) :
    (stepParam upd w i).params.get? j = w.params.get? j ∧
      (stepParam upd w i).aux.get? j = w.aux.get? j := by
  unfold stepParam
  split
  · split
    · exact ⟨listModify_get?_ne _ _ _ _ h, listModify_get?_ne _ _ _ _ h⟩
    · exact ⟨rfl, rfl⟩
  · exact ⟨rfl, rfl⟩

theorem zeroGradParam_dict (w : World) (i : Nat) :
    (zeroGradParam w i).dict = w.dict := rfl

theorem zeroGradParam_aux (w : World) (i : Nat) :
    (zeroGradParam w i).aux = w.aux := rfl

theorem zeroGradParam_params_length (w : World) (i : Nat) :
    (zeroGradParam w i).params.length = w.params.length := by
  simp [zeroGradParam, listModify_length]

theorem zeroGradParam_get?_ne (w : World) (i j : Nat) (h : j ≠ i) :
    (zeroGradParam w i).params.get? j = w.params.get? j ∧
      (zeroGradParam w i).aux.get? j = w.aux.get? j :=
  ⟨listModify_get?_ne _ _ _ _ h, rfl⟩

theorem stepParam_at (upd : UpdRule) (w : World) (i : Nat) (ps : ParamState)
    (a g : Int) (hp : w.params.get? i = some ps) (ha : w.aux.get? i = some a)
    (hg : ps.grad = some g) :
    (stepParam upd w i).params.get? i = some { ps with value := (upd ps.value g a).1 } ∧
      (stepParam upd w i).aux.get? i = some (upd ps.value g a).2 := by
  unfold stepParam
  simp only [hp, ha, hg]
  constructor
  · rw [listModify_get?_eq, hp]
    simp [hg]
  · rw [listModify_get?_eq, ha]
    rfl

theorem zeroGradParam_at (w : World) (i : Nat) (ps : ParamState)
    (hp : w.params.get? i = some ps) :
    (zeroGradParam w i).params.get? i = some { ps with grad := none } := by
  unfold zeroGradParam
  rw [listModify_get?_eq, hp]
  rfl

theorem hookVisit_dict (upd : UpdRule) (g : Int) (w : World) (p : Nat) :
    (hookVisit upd g w p).dict = w.dict := by
  unfold hookVisit
  rw [zeroGradParam_dict, stepParam_dict]

theorem hookVisit_params_length (upd : UpdRule) (g : Int) (w : World) (p : Nat) :
    (hookVisit upd g w p).params.length = w.params.length := by
  unfold hookVisit
  rw [zeroGradParam_params_length, stepParam_params_length]
  simp [listModify_length]

theorem hookVisit_aux_length (upd : UpdRule) (g : Int) (w : World) (p : Nat) :
    (hookVisit upd g w p).aux.length = w.aux.length := by
  unfold hookVisit
  rw [zeroGradParam_aux, stepParam_aux_length]

theorem hookVisit_get?_ne (upd : UpdRule) (g : Int) (w : World) (p j : Nat)
    (h : j ≠ p) :
    (hookVisit upd g w p).params.get? j = w.params.get? j ∧
      (hookVisit upd g w p).aux.get? j = w.aux.get? j := by
  unfold hookVisit
  have h1 := zeroGradParam_get?_ne
    (stepParam upd { w with params := listModify (accumGrad g) p w.params } p) p j h
  have h2 := stepParam_get?_ne upd
    { w with params := listModify (accumGrad g) p w.params } p j h
  refine ⟨h1.1.trans (h2.1.trans ?_), h1.2.trans h2.2⟩
  exact listModify_get?_ne _ _ _ _ h

theorem hookVisit_at (upd : UpdRule) (g : Int) (w : World) (p : Nat)
    (ps : ParamState) (a : Int) (hp : w.params.get? p = some ps)
    (ha : w.aux.get? p = some a) :
    (hookVisit upd g w p).params.get? p =
        some ⟨(upd ps.value (ps.grad.getD 0 + g) a).1, none⟩ ∧
      (hookVisit upd g w p).aux.get? p =
        some (upd ps.value (ps.grad.getD 0 + g) a).2 := by
  unfold hookVisit
  have hp1 : ({ w with params := listModify (accumGrad g) p w.params } : World).params.get? p
      = some (accumGrad g ps) := by
    simp only [listModify_get?_eq, hp, Option.map_some']
  have ha1 : ({ w with params := listModify (accumGrad g) p w.params } : World).aux.get? p
      = some a := ha
  have hstep := stepParam_at upd _ p (accumGrad g ps) a (ps.grad.getD 0 + g) hp1 ha1 rfl
  have hzero := zeroGradParam_at _ p _ hstep.1
  constructor
  · rw [hzero]
    simp [accumGrad]
  · rw [zeroGradParam_aux]
    exact hstep.2

/-! ### Generic lemmas about folds of per-parameter operations -/

theorem foldl_preserves (f : World → Nat → World)
    (h : ∀ w i, (f w i).dict = w.dict ∧ (f w i).params.length = w.params.length ∧
      (f w i).aux.length = w.aux.length) (ord : List Nat) (w : World) :
    (ord.foldl f w).dict = w.dict ∧ (ord.foldl f w).params.length = w.params.length ∧
      (ord.foldl f w).aux.length = w.aux.length := by
  induction ord generalizing w with
  | nil => exact ⟨rfl, rfl, rfl⟩
  | cons q rest ih =>
    simp only [List.foldl_cons]
    obtain ⟨d1, p1, a1⟩ := h w q
    obtain ⟨d2, p2, a2⟩ := ih (f w q)
    exact ⟨d2.trans d1, p2.trans p1, a2.trans a1⟩

theorem foldl_get?_ne (f : World → Nat → World)
    (hf : ∀ w i j, j ≠ i → (f w i).params.get? j = w.params.get? j ∧
      (f w i).aux.get? j = w.aux.get? j)
    (ord : List Nat) (w : World) (j : Nat) (hj : j ∉ ord) :
    (ord.foldl f w).params.get? j = w.params.get? j ∧
      (ord.foldl f w).aux.get? j = w.aux.get? j := by
  induction ord generalizing w with
  | nil => exact ⟨rfl, rfl⟩
  | cons q rest ih =>
    simp only [List.foldl_cons]
    have hjq : j ≠ q := fun hh => hj (hh ▸ List.mem_cons_self q rest)
    have h1 := hf w q j hjq
    have h2 := ih (f w q) (fun hh => hj (List.mem_cons_of_mem q hh))
    exact ⟨h2.1.trans h1.1, h2.2.trans h1.2⟩

theorem foldl_localized (f : World → Nat → World)
    (hf : ∀ w i j, j ≠ i → (f w i).params.get? j = w.params.get? j ∧
      (f w i).aux.get? j = w.aux.get? j)
    (ord : List Nat) (w : World) (i : Nat) (hnd : ord.Nodup) (hi : i ∈ ord) :
    ∃ w0 : World, w0.params.get? i = w.params.get? i ∧ w0.aux.get? i = w.aux.get? i ∧
      (ord.foldl f w).params.get? i = (f w0 i).params.get? i ∧
      (ord.foldl f w).aux.get? i = (f w0 i).aux.get? i := by
  induction ord generalizing w with
  | nil => cases hi
  | cons q rest ih =>
    simp only [List.foldl_cons]
    rcases List.mem_cons.mp hi with hiq | hir
    · subst hiq
      have hnotin : i ∉ rest := (List.nodup_cons.mp hnd).1
      have hfr := foldl_get?_ne f hf rest (f w i) i hnotin
      exact ⟨w, rfl, rfl, hfr.1, hfr.2⟩
    · have hne : i ≠ q := by
        intro hh
        subst hh
        exact (List.nodup_cons.mp hnd).1 hir
      have h1 := hf w q i hne
      obtain ⟨w0, e1, e2, e3, e4⟩ := ih (f w q) (List.nodup_cons.mp hnd).2 hir
      exact ⟨w0, e1.trans h1.1, e2.trans h1.2, e3, e4⟩

/-! ### Pointwise characterization of the baseline iteration -/

theorem backwardAll_get? (gradOf : GradFn) (input : Int) (w : World) (i : Nat) :
    (backwardAll gradOf input w).params.get? i =
      (w.params.get? i).map (accumGrad (gradOf input (w.params.map (fun p => p.value)) i)) := by
  unfold backwardAll
  simp only [listMapIdxFrom_get?, Nat.zero_add]

theorem backwardAll_aux (gradOf : GradFn) (input : Int) (w : World) :
    (backwardAll gradOf input w).aux = w.aux := rfl

theorem backwardAll_dict (gradOf : GradFn) (input : Int) (w : World) :
    (backwardAll gradOf input w).dict = w.dict := rfl

theorem backwardAll_params_length (gradOf : GradFn) (input : Int) (w : World) :
    (backwardAll gradOf input w).params.length = w.params.length := by
  unfold backwardAll
  simp [listMapIdxFrom_length]

theorem stepParam_preserves (upd : UpdRule) : ∀ (w : World) (i : Nat),
    (stepParam upd w i).dict = w.dict ∧
      (stepParam upd w i).params.length = w.params.length ∧
      (stepParam upd w i).aux.length = w.aux.length :=
  fun w i => ⟨stepParam_dict upd w i, stepParam_params_length upd w i,
    stepParam_aux_length upd w i⟩

theorem zeroGradParam_preserves : ∀ (w : World) (i : Nat),
    (zeroGradParam w i).dict = w.dict ∧
      (zeroGradParam w i).params.length = w.params.length ∧
      (zeroGradParam w i).aux.length = w.aux.length :=
  fun w i => ⟨zeroGradParam_dict w i, zeroGradParam_params_length w i,
    congrArg List.length (zeroGradParam_aux w i)⟩

theorem train_dict (upd : UpdRule) (gradOf : GradFn) (input : Int) (w : World) :
    (train upd gradOf input w).dict = w.dict := by
  unfold train optStep optZeroGrad
  rw [(foldl_preserves zeroGradParam zeroGradParam_preserves _ _).1,
    (foldl_preserves (stepParam upd) (stepParam_preserves upd) _ _).1,
    backwardAll_dict]

theorem train_params_length (upd : UpdRule) (gradOf : GradFn) (input : Int) (w : World) :
    (train upd gradOf input w).params.length = w.params.length := by
  unfold train optStep optZeroGrad
  rw [(foldl_preserves zeroGradParam zeroGradParam_preserves _ _).2.1,
    (foldl_preserves (stepParam upd) (stepParam_preserves upd) _ _).2.1,
    backwardAll_params_length]

theorem train_aux_length (upd : UpdRule) (gradOf : GradFn) (input : Int) (w : World) :
    (train upd gradOf input w).aux.length = w.aux.length := by
  unfold train optStep optZeroGrad
  rw [(foldl_preserves zeroGradParam zeroGradParam_preserves _ _).2.2,
    (foldl_preserves (stepParam upd) (stepParam_preserves upd) _ _).2.2]
  rfl

theorem World.eq_of_fields {w1 w2 : World} (hp : w1.params = w2.params)
    (ha : w1.aux = w2.aux) (hd : w1.dict = w2.dict) : w1 = w2 := by
  cases w1
  cases w2
  cases hp
  cases ha
  cases hd
  rfl

theorem train_at (upd : UpdRule) (gradOf : GradFn) (input : Int) (w : World)
    (i : Nat) (ps : ParamState) (a : Int)
    (hp : w.params.get? i = some ps) (ha : w.aux.get? i = some a) :
    (train upd gradOf input w).params.get? i =
        some ⟨(upd ps.value (ps.grad.getD 0 +
          gradOf input (w.params.map (fun p => p.value)) i) a).1, none⟩ ∧
      (train upd gradOf input w).aux.get? i =
        some (upd ps.value (ps.grad.getD 0 +
          gradOf input (w.params.map (fun p => p.value)) i) a).2 := by
  have hi : i < w.params.length := by
    by_contra hlt
    rw [List.get?_eq_none.mpr (Nat.le_of_not_lt hlt)] at hp
    exact Option.noConfusion hp
  set g := gradOf input (w.params.map (fun p => p.value)) i with hgdef
  set w1 := backwardAll gradOf input w with hw1
  have hp1 : w1.params.get? i = some (accumGrad g ps) := by
    rw [hw1, backwardAll_get?, hp]
    rfl
  have ha1 : w1.aux.get? i = some a := by
    rw [hw1, backwardAll_aux]
    exact ha
  have hmemi : i ∈ List.range w.params.length := List.mem_range.mpr hi
  unfold train
  rw [← hw1]
  set w2 := optStep upd (List.range w.params.length) w1 with hw2
  have hstep2 : w2.params.get? i =
      some { accumGrad g ps with value := (upd ps.value (ps.grad.getD 0 + g) a).1 } ∧
      w2.aux.get? i = some (upd ps.value (ps.grad.getD 0 + g) a).2 := by
    obtain ⟨w0, e1, e2, e3, e4⟩ := foldl_localized (stepParam upd)
      (fun w i j hji => stepParam_get?_ne upd w i j hji)
      (List.range w.params.length) w1 i (List.nodup_range _) hmemi
    have h0p : w0.params.get? i = some (accumGrad g ps) := e1.trans hp1
    have h0a : w0.aux.get? i = some a := e2.trans ha1
    have := stepParam_at upd w0 i (accumGrad g ps) a (ps.grad.getD 0 + g) h0p h0a rfl
    rw [hw2]
    show (optStep upd (List.range w.params.length) w1).params.get? i = _ ∧
      (optStep upd (List.range w.params.length) w1).aux.get? i = _
    unfold optStep
    refine ⟨e3.trans ?_, e4.trans ?_⟩
    · rw [this.1]
      rfl
    · rw [this.2]
      rfl
  obtain ⟨w0', f1, f2, f3, f4⟩ := foldl_localized zeroGradParam
    (fun w i j hji => zeroGradParam_get?_ne w i j hji)
    (List.range w.params.length) w2 i (List.nodup_range _) hmemi
  have h0p' : w0'.params.get? i =
      some { accumGrad g ps with value := (upd ps.value (ps.grad.getD 0 + g) a).1 } :=
    f1.trans hstep2.1
  constructor
  · show (optZeroGrad (List.range w.params.length) w2).params.get? i = _
    unfold optZeroGrad
    rw [f3, zeroGradParam_at w0' i _ h0p']
  · show (optZeroGrad (List.range w.params.length) w2).aux.get? i = _
    unfold optZeroGrad
    rw [f4, zeroGradParam_aux]
    exact f2.trans hstep2.2

/-! ### The fused backward pass as a pure fold -/

theorem hookVisit_preserves (upd : UpdRule) (gv : Nat → Int) : ∀ (w : World) (i : Nat),
    (hookVisit upd (gv i) w i).dict = w.dict ∧
      (hookVisit upd (gv i) w i).params.length = w.params.length ∧
      (hookVisit upd (gv i) w i).aux.length = w.aux.length :=
  fun w i => ⟨hookVisit_dict upd (gv i) w i, hookVisit_params_length upd (gv i) w i,
    hookVisit_aux_length upd (gv i) w i⟩

theorem fusedVisit_ok (upd : UpdRule) (gradOf : GradFn) (input : Int)
    (vals : List Int) (w : World) (p : Nat)
    (h : lookupDict w.dict p = some [p]) :
    fusedVisit upd gradOf input vals w p =
      .ok (hookVisit upd (gradOf input vals p) w p) := by
  unfold fusedVisit optimizer_hook hookVisit
  have hd1 : ({ w with params := listModify (accumGrad (gradOf input vals p)) p w.params }
      : World).dict = w.dict := rfl
  simp only [hd1, h]
  have hd2 : (optStep upd [p]
      { w with params := listModify (accumGrad (gradOf input vals p)) p w.params }).dict
      = w.dict := by
    rw [show (optStep upd [p]
        { w with params := listModify (accumGrad (gradOf input vals p)) p w.params })
        = stepParam upd
          { w with params := listModify (accumGrad (gradOf input vals p)) p w.params } p
      from rfl, stepParam_dict]
  simp only [hd2, h]
  rfl

theorem fusedFold_ok (upd : UpdRule) (gradOf : GradFn) (input : Int)
    (vals : List Int) (ord : List Nat) (w : World)
    (h : ∀ p ∈ ord, lookupDict w.dict p = some [p]) :
    ord.foldlM (fusedVisit upd gradOf input vals) w =
      .ok (ord.foldl (fun w p => hookVisit upd (gradOf input vals p) w p) w) := by
  induction ord generalizing w with
  | nil => rfl
  | cons q rest ih =>
    rw [List.foldlM_cons, fusedVisit_ok upd gradOf input vals w q
      (h q (List.mem_cons_self q rest))]
    have hdict : (hookVisit upd (gradOf input vals q) w q).dict = w.dict :=
      hookVisit_dict upd (gradOf input vals q) w q
    have htail : ∀ p ∈ rest,
        lookupDict (hookVisit upd (gradOf input vals q) w q).dict p = some [p] := by
      intro p hp
      rw [hdict]
      exact h p (List.mem_cons_of_mem q hp)
    show rest.foldlM (fusedVisit upd gradOf input vals)
        (hookVisit upd (gradOf input vals q) w q) = _
    rw [ih _ htail, List.foldl_cons]

/-- The per-iteration refinement: one fused backward pass (gradient
accumulation hooks firing the per-parameter optimizers, in any traversal
order covering each parameter exactly once) computes exactly the state the
baseline `train` body computes. -/
theorem fusedBackward_eq_train (upd : UpdRule) (gradOf : GradFn) (input : Int)
    (n : Nat) (ord : List Nat) (w : World)
    (hd : w.dict = optimizer_dict n)
    (hlp : w.params.length = n) (hla : w.aux.length = n)
    (hperm : ord.Perm (List.range n)) :
    fusedBackward upd gradOf input ord w = .ok (train upd gradOf input w) := by
  have hmem : ∀ p, p ∈ ord ↔ p < n := fun p => by
    rw [hperm.mem_iff, List.mem_range]
  have hnd : ord.Nodup := hperm.nodup_iff.mpr (List.nodup_range n)
  have hlook : ∀ p ∈ ord, lookupDict w.dict p = some [p] := by
    intro p hp
    rw [hd, lookupDict_optimizer_dict]
    simp [(hmem p).mp hp]
  unfold fusedBackward
  rw [fusedFold_ok upd gradOf input _ ord w hlook]
  congr 1
  set vals := w.params.map (fun p => p.value) with hvals
  set F := ord.foldl (fun w p => hookVisit upd (gradOf input vals p) w p) w with hF
  have hpres := foldl_preserves _ (hookVisit_preserves upd (fun p => gradOf input vals p))
    ord w
  have hframe : ∀ (w : World) (i j : Nat), j ≠ i →
      (hookVisit upd (gradOf input vals i) w i).params.get? j = w.params.get? j ∧
      (hookVisit upd (gradOf input vals i) w i).aux.get? j = w.aux.get? j :=
    fun w i j hji => hookVisit_get?_ne upd (gradOf input vals i) w i j hji
  apply World.eq_of_fields
  · apply List.ext
    intro j
    by_cases hj : j < n
    · have hjp : j < w.params.length := hlp ▸ hj
      have hja : j < w.aux.length := hla ▸ hj
      have hpj : w.params.get? j = some (w.params.get ⟨j, hjp⟩) := List.get?_eq_get hjp
      have haj : w.aux.get? j = some (w.aux.get ⟨j, hja⟩) := List.get?_eq_get hja
      obtain ⟨w0, e1, e2, e3, e4⟩ := foldl_localized _ hframe ord w j hnd ((hmem j).mpr hj)
      rw [← hF] at e3
      rw [e3, (hookVisit_at upd (gradOf input vals j) w0 j _ _
        (e1.trans hpj) (e2.trans haj)).1,
        (train_at upd gradOf input w j _ _ hpj haj).1]
    · have h1 : F.params.length ≤ j := by
        rw [hpres.2.1, hlp]
        exact Nat.le_of_not_lt hj
      have h2 : (train upd gradOf input w).params.length ≤ j := by
        rw [train_params_length, hlp]
        exact Nat.le_of_not_lt hj
      rw [List.get?_eq_none.mpr h1, List.get?_eq_none.mpr h2]
  · apply List.ext
    intro j
    by_cases hj : j < n
    · have hjp : j < w.params.length := hlp ▸ hj
      have hja : j < w.aux.length := hla ▸ hj
      have hpj : w.params.get? j = some (w.params.get ⟨j, hjp⟩) := List.get?_eq_get hjp
      have haj : w.aux.get? j = some (w.aux.get ⟨j, hja⟩) := List.get?_eq_get hja
      obtain ⟨w0, e1, e2, e3, e4⟩ := foldl_localized _ hframe ord w j hnd ((hmem j).mpr hj)
      rw [← hF] at e4
      rw [e4, (hookVisit_at upd (gradOf input vals j) w0 j _ _
        (e1.trans hpj) (e2.trans haj)).2,
        (train_at upd gradOf input w j _ _ hpj haj).2]
    · have h1 : F.aux.length ≤ j := by
        rw [hpres.2.2, hla]
        exact Nat.le_of_not_lt hj
      have h2 : (train upd gradOf input w).aux.length ≤ j := by
        rw [train_aux_length, hla]
        exact Nat.le_of_not_lt hj
      rw [List.get?_eq_none.mpr h1, List.get?_eq_none.mpr h2]
  · rw [hpres.1, train_dict, hd]

/-! ### Inversion and preservation for the hook and the fused loop -/

theorem optimizer_hook_ok_inv (upd : UpdRule) (w1 w2 : World) (p : Nat)
    (h : optimizer_hook upd w1 p = .ok w2) :
    ∃ owned owned2 : List Nat, lookupDict w1.dict p = some owned ∧
      lookupDict (optStep upd owned w1).dict p = some owned2 ∧
      w2 = optZeroGrad owned2 (optStep upd owned w1) := by
  unfold optimizer_hook at h
  cases hl : lookupDict w1.dict p with
  | none =>
    simp only [hl] at h
    exact absurd h (by simp)
  | some owned =>
    simp only [hl] at h
    cases hl2 : lookupDict (optStep upd owned w1).dict p with
    | none =>
      simp only [hl2] at h
      exact absurd h (by simp)
    | some owned2 =>
      simp only [hl2] at h
      refine ⟨owned, owned2, rfl, hl2, ?_⟩
      injection h with h2
      exact h2.symm

theorem optimizer_hook_ok_dict (upd : UpdRule) (w1 w2 : World) (p : Nat)
    (h : optimizer_hook upd w1 p = .ok w2) : w2.dict = w1.dict := by
  obtain ⟨o1, o2, _, _, rfl⟩ := optimizer_hook_ok_inv upd w1 w2 p h
  unfold optZeroGrad optStep
  rw [(foldl_preserves zeroGradParam zeroGradParam_preserves _ _).1,
    (foldl_preserves (stepParam upd) (stepParam_preserves upd) _ _).1]

theorem hook_frame_aux (upd : UpdRule) (n : Nat) (w w' : World) (p q : Nat)
    (hd : w.dict = optimizer_dict n) (h : optimizer_hook upd w p = .ok w')
    (hq : q ≠ p) :
    w'.params.get? q = w.params.get? q ∧ w'.aux.get? q = w.aux.get? q := by
  obtain ⟨o1, o2, h1, h2, hw'⟩ := optimizer_hook_ok_inv upd w w' p h
  rw [hd, lookupDict_optimizer_dict] at h1
  by_cases hp : p < n
  · rw [if_pos hp] at h1
    injection h1 with h1e
    subst h1e
    have hdd : (optStep upd [p] w).dict = w.dict :=
      (foldl_preserves (stepParam upd) (stepParam_preserves upd) [p] w).1
    rw [hdd, hd, lookupDict_optimizer_dict, if_pos hp] at h2
    injection h2 with h2e
    subst h2e
    subst hw'
    have a1 := zeroGradParam_get?_ne (stepParam upd w p) p q hq
    have a2 := stepParam_get?_ne upd w p q hq
    exact ⟨a1.1.trans a2.1, a1.2.trans a2.2⟩
  · rw [if_neg hp] at h1
    exact absurd h1 (by simp)

theorem fusedVisit_ok_dict (upd : UpdRule) (gradOf : GradFn) (input : Int)
    (vals : List Int) (w w1 : World) (p : Nat)
    (h : fusedVisit upd gradOf input vals w p = .ok w1) : w1.dict = w.dict := by
  unfold fusedVisit at h
  have h2 : optimizer_hook upd
      { w with params := listModify (accumGrad (gradOf input vals p)) p w.params } p
      = .ok w1 := h
  exact optimizer_hook_ok_dict upd
    { w with params := listModify (accumGrad (gradOf input vals p)) p w.params } w1 p h2

theorem foldlM_fusedVisit_dict (upd : UpdRule) (gradOf : GradFn) (input : Int)
    (vals : List Int) : ∀ (ord : List Nat) (w w1 : World),
    ord.foldlM (fusedVisit upd gradOf input vals) w = .ok w1 → w1.dict = w.dict := by
  intro ord
  induction ord with
  | nil =>
    intro w w1 h
    injection h with h2
    rw [h2]
  | cons q rest ih =>
    intro w w1 h
    rw [List.foldlM_cons] at h
    cases hv : fusedVisit upd gradOf input vals w q with
    | error e =>
      rw [hv] at h
      exact absurd h (by simp [Bind.bind, Except.bind])
    | ok wq =>
      rw [hv] at h
      have h2 : rest.foldlM (fusedVisit upd gradOf input vals) wq = .ok w1 := h
      exact (ih wq w1 h2).trans (fusedVisit_ok_dict upd gradOf input vals w wq q hv)

theorem fusedBackward_ok_dict (upd : UpdRule) (gradOf : GradFn) (input : Int)
    (ord : List Nat) (w w1 : World)
    (h : fusedBackward upd gradOf input ord w = .ok w1) : w1.dict = w.dict := by
  unfold fusedBackward at h
  exact foldlM_fusedVisit_dict upd gradOf input _ ord w w1 h

theorem fusedLoop_ok_dict (upd : UpdRule) (gradOf : GradFn) (batch : Nat → Int)
    (ord : List Nat) : ∀ (N k : Nat) (w w1 : World),
    fusedLoop upd gradOf batch ord k N w = .ok w1 → w1.dict = w.dict := by
  intro N
  induction N with
  | zero =>
    intro k w w1 h
    injection h with h2
    rw [h2]
  | succ m ih =>
    intro k w w1 h
    unfold fusedLoop at h
    cases hb : trainFused upd gradOf (batch k) ord w with
    | error e =>
      rw [hb] at h
      exact absurd h (by simp)
    | ok wq =>
      rw [hb] at h
      exact (ih (k + 1) wq w1 h).trans (fusedBackward_ok_dict upd gradOf (batch k) ord w wq hb)

/-! ### Recorder lemmas -/

theorem runOps_append (r : RecWorld) (l1 l2 : List Op) :
    runOps r (l1 ++ l2) = runOps (runOps r l1) l2 := by
  unfold runOps
  exact List.foldl_append runOp r l1 l2

theorem runOps_trainingOps (r : RecWorld) (allocs : List Nat) (h : r.enabled = true) :
    runOps r (trainingOps allocs) = { r with log := r.log ++ allocs } := by
  induction allocs generalizing r with
  | nil => simp [runOps, trainingOps]
  | cons a as ih =>
    show runOps (runOp r (Op.alloc a)) (trainingOps as) = _
    rw [show runOp r (Op.alloc a) = { r with log := r.log ++ [a] } from by simp [runOp, h]]
    rw [ih { r with log := r.log ++ [a] } h]
    simp

/-! ### Claim theorems -/

/-- C1: for every parameter passed to it, `optimizer_hook` first looks up
that parameter's dedicated update-rule instance in the mapping, then
invokes that instance's `step()`, and then clears that parameter's gradient
accumulator with `zero_grad()`, in exactly this order: the three operations
occur in that order in the hook's operation trace, and the state computed
by the hook is the `zero_grad()` of the `step()` of the looked-up
instance. -/
theorem hook_lookup_step_zero_order (upd : UpdRule) (w : World) (p : Nat)
    (owned : List Nat) (h : lookupDict w.dict p = some owned) :
    [Op.lookupOp p, Op.stepOp p, Op.zeroGradOp p].Sublist (optimizer_hook_ops p) ∧
      optimizer_hook upd w p = .ok (optZeroGrad owned (optStep upd owned w)) := by
  constructor
  · exact List.Sublist.cons₂ _ (List.Sublist.cons₂ _
      (List.Sublist.cons _ (List.Sublist.cons₂ _ List.Sublist.slnil)))
  · unfold optimizer_hook
    have hdp : (optStep upd owned w).dict = w.dict :=
      (foldl_preserves (stepParam upd) (stepParam_preserves upd) owned w).1
    simp only [h, hdp]

/-- Witness for C1 at a concrete world and parameter. -/
theorem hook_lookup_step_zero_order_witness :
    [Op.lookupOp 0, Op.stepOp 0, Op.zeroGradOp 0].Sublist (optimizer_hook_ops 0) ∧
      optimizer_hook updT w2T 0 = .ok (optZeroGrad [0] (optStep updT [0] w2T)) :=
  hook_lookup_step_zero_order updT w2T 0 [0] (by decide)

/-- C10: `optimizer_hook` performs an unguarded dictionary lookup: on a
parameter that is not a key of the mapping the hook raises `KeyError`,
returning no updated state (so no optimizer update and no gradient
clearing happens). -/
theorem hook_missing_key (upd : UpdRule) (w : World) (p : Nat)
    (h : lookupDict w.dict p = none) :
    optimizer_hook upd w p = .error "KeyError" := by
  unfold optimizer_hook
  simp only [h]

/-- Witness for C10: parameter 5 is not a key of the two-parameter
mapping. -/
theorem hook_missing_key_witness :
    optimizer_hook updT w2T 5 = .error "KeyError" :=
  hook_missing_key updT w2T 5 (by decide)

/-- C3: the mapping built by the fused design is a bijection between the
model's trainable parameters and the update-rule instances: its key list is
exactly the parameter list (no omissions, no duplicates), each entry's
instance owns exactly the singleton list of its key, every parameter below
`n` is owned by exactly the instance stored at its key, and no other key
exists. -/
theorem optimizer_dict_bijection (n : Nat) :
    (optimizer_dict n).map Prod.fst = List.range n ∧
      ((optimizer_dict n).map Prod.fst).Nodup ∧
      (∀ kv ∈ optimizer_dict n, kv.2 = [kv.1]) ∧
      (∀ p, p < n → lookupDict (optimizer_dict n) p = some [p]) ∧
      (∀ p, n ≤ p → lookupDict (optimizer_dict n) p = none) := by
  have hkeys : (optimizer_dict n).map Prod.fst = List.range n := by
    unfold optimizer_dict
    rw [List.map_map]
    rw [show (Prod.fst ∘ fun p : Nat => (p, [p])) = id from rfl, List.map_id]
  refine ⟨hkeys, ?_, ?_, ?_, ?_⟩
  · rw [hkeys]
    exact List.nodup_range n
  · intro kv hkv
    unfold optimizer_dict at hkv
    obtain ⟨p, _, rfl⟩ := List.mem_map.mp hkv
    rfl
  · intro p hp
    rw [lookupDict_optimizer_dict, if_pos hp]
  · intro p hp
    rw [lookupDict_optimizer_dict, if_neg (Nat.not_lt.mpr hp)]

/-- Witness for C3 on the three-parameter mapping. -/
theorem optimizer_dict_bijection_witness :
    lookupDict (optimizer_dict 3) 1 = some [1] ∧
      lookupDict (optimizer_dict 3) 5 = none :=
  ⟨(optimizer_dict_bijection 3).2.2.2.1 1 (by decide),
    (optimizer_dict_bijection 3).2.2.2.2 5 (by decide)⟩

/-- C2: in the fused design, one backward pass (the traversal covering
each of the `n` parameters exactly once) succeeds, and afterwards every
parameter's gradient accumulator is empty and its value reflects exactly
one application of the update rule to its pre-backward value, gradient and
auxiliary state. -/
theorem fused_one_pass_clears_and_updates_once (upd : UpdRule) (gradOf : GradFn)
    (input : Int) (n : Nat) (ord : List Nat) (w : World)
    (hd : w.dict = optimizer_dict n)
    (hlp : w.params.length = n) (hla : w.aux.length = n)
    (hperm : ord.Perm (List.range n)) :
    ∃ w' : World, fusedBackward upd gradOf input ord w = .ok w' ∧
      ∀ (i : Nat) (ps : ParamState) (a : Int),
        w.params.get? i = some ps → w.aux.get? i = some a →
        w'.params.get? i = some ⟨(upd ps.value (ps.grad.getD 0 +
            gradOf input (w.params.map (fun p => p.value)) i) a).1, none⟩ ∧
          w'.aux.get? i = some (upd ps.value (ps.grad.getD 0 +
            gradOf input (w.params.map (fun p => p.value)) i) a).2 := by
  refine ⟨train upd gradOf input w,
    fusedBackward_eq_train upd gradOf input n ord w hd hlp hla hperm, ?_⟩
  intro i ps a hp ha
  exact train_at upd gradOf input w i ps a hp ha

/-- Witness for C2 on the concrete two-parameter world, backward traversal
order `[1, 0]`. -/
theorem fused_one_pass_witness :
    ∃ w' : World, fusedBackward updT gradT 4 [1, 0] w2T = .ok w' ∧
      w'.params.get? 0 = some ⟨-5, none⟩ ∧ w'.params.get? 1 = some ⟨-2, none⟩ := by
  obtain ⟨w', hw, hall⟩ := fused_one_pass_clears_and_updates_once updT gradT 4 2 [1, 0]
    w2T rfl rfl rfl (by decide)
  refine ⟨w', hw, ?_, ?_⟩
  · rw [(hall 0 ⟨5, some 2⟩ 1 rfl rfl).1]
    decide
  · rw [(hall 1 ⟨7, none⟩ 3 rfl rfl).1]
    decide

/-- C4: for every iteration count `N`, deterministic batch sequence and
identically configured per-parameter update rule with no cross-parameter
coupling, `N` iterations of the fused loop produce exactly the parameter
trajectory of `N` iterations of the baseline loop. -/
theorem fusedLoop_eq_trainLoop (upd : UpdRule) (gradOf : GradFn)
    (batch : Nat → Int) (n : Nat) (ord : List Nat) (N k : Nat) (w : World)
    (hd : w.dict = optimizer_dict n)
    (hlp : w.params.length = n) (hla : w.aux.length = n)
    (hperm : ord.Perm (List.range n)) :
    fusedLoop upd gradOf batch ord k N w = .ok (trainLoop upd gradOf batch k N w) := by
  induction N generalizing k w with
  | zero => rfl
  | succ m ih =>
    unfold fusedLoop trainLoop
    rw [show trainFused upd gradOf (batch k) ord w
        = fusedBackward upd gradOf (batch k) ord w from rfl,
      fusedBackward_eq_train upd gradOf (batch k) n ord w hd hlp hla hperm]
    exact ih (k + 1) (train upd gradOf (batch k) w)
      ((train_dict upd gradOf (batch k) w).trans hd)
      ((train_params_length upd gradOf (batch k) w).trans hlp)
      ((train_aux_length upd gradOf (batch k) w).trans hla)

/-- Witness for C4: two fused iterations equal two baseline iterations on
the concrete two-parameter world. -/
theorem fusedLoop_eq_trainLoop_witness :
    fusedLoop updT gradT (fun k => Int.ofNat k) [1, 0] 0 2 w2T =
      .ok (trainLoop updT gradT (fun k => Int.ofNat k) 0 2 w2T) :=
  fusedLoop_eq_trainLoop updT gradT (fun k => Int.ofNat k) 2 [1, 0] 2 0 w2T
    rfl rfl rfl (by decide)

/-- C7: each baseline iteration performs, in order, batch generation,
forward evaluation, reverse-mode differentiation, one shared `step()` and
one shared `zero_grad()`; the differentiation populates every parameter's
gradient accumulator, the shared update mutates every parameter from its
accumulated gradient and auxiliary state, and afterwards every accumulator
is cleared. -/
theorem baseline_train_phases (upd : UpdRule) (gradOf : GradFn) (input : Int)
    (w : World) :
    trainTrace.map Prod.snd =
        [Op.genBatch, Op.forwardEval, Op.backwardCall, Op.stepShared,
          Op.zeroGradShared] ∧
      (∀ (i : Nat) (ps : ParamState), w.params.get? i = some ps →
        ((backwardAll gradOf input w).params.get? i).map ParamState.grad =
          some (some (ps.grad.getD 0 +
            gradOf input (w.params.map (fun p => p.value)) i))) ∧
      (∀ (i : Nat) (ps : ParamState) (a : Int),
        w.params.get? i = some ps → w.aux.get? i = some a →
        (train upd gradOf input w).params.get? i =
            some ⟨(upd ps.value (ps.grad.getD 0 +
              gradOf input (w.params.map (fun p => p.value)) i) a).1, none⟩ ∧
          (train upd gradOf input w).aux.get? i =
            some (upd ps.value (ps.grad.getD 0 +
              gradOf input (w.params.map (fun p => p.value)) i) a).2) := by
  refine ⟨rfl, ?_, ?_⟩
  · intro i ps hp
    rw [backwardAll_get?, hp]
    rfl
  · intro i ps a hp ha
    exact train_at upd gradOf input w i ps a hp ha

/-- Witness for C7 on the concrete two-parameter world. -/
theorem baseline_train_phases_witness :
    (train updT gradT 4 w2T).params.get? 0 = some ⟨-5, none⟩ := by
  rw [((baseline_train_phases updT gradT 4 w2T).2.2 0 ⟨5, some 2⟩ 1 rfl rfl).1]
  decide

/-- C9: invoking `optimizer_hook` on a parameter `p` of the fused design
leaves every other parameter's value, gradient accumulator and optimizer
state unchanged, because the instance looked up for `p` owns only `[p]` and
its `zero_grad()` clears only that list. -/
theorem hook_frame (upd : UpdRule) (n : Nat) (w w' : World) (p q : Nat)
    (hd : w.dict = optimizer_dict n) (h : optimizer_hook upd w p = .ok w')
    (hq : q ≠ p) :
    w'.params.get? q = w.params.get? q ∧ w'.aux.get? q = w.aux.get? q :=
  hook_frame_aux upd n w w' p q hd h hq

/-- Witness for C9: the hook applied to parameter 0 leaves parameter 1
untouched in the concrete two-parameter world. -/
theorem hook_frame_witness :
    (optZeroGrad [0] (optStep updT [0] w2T)).params.get? 1 = w2T.params.get? 1 ∧
      (optZeroGrad [0] (optStep updT [0] w2T)).aux.get? 1 = w2T.aux.get? 1 :=
  hook_frame updT 2 w2T (optZeroGrad [0] (optStep updT [0] w2T)) 0 1 rfl
    rfl (by decide)

/-- C8: the parameter-to-update-rule mapping is installed exactly once by
the setup; every successful hook invocation leaves the mapping unchanged
(it only reads it by key lookup) and, in the fused design, mutates nothing
but the received parameter's value, optimizer state and gradient buffer;
the whole fused training loop leaves the mapping unchanged. -/
theorem mapping_built_once_read_only (upd : UpdRule) (gradOf : GradFn)
    (batch : Nat → Int) (ord : List Nat) (n N k : Nat) (w : World) :
    (setupFused n w).dict = optimizer_dict n ∧
      (∀ (w1 w2 : World) (p : Nat), optimizer_hook upd w1 p = .ok w2 →
        w2.dict = w1.dict) ∧
      (∀ (w1 w2 : World) (p q : Nat), w1.dict = optimizer_dict n →
        optimizer_hook upd w1 p = .ok w2 → q ≠ p →
        w2.params.get? q = w1.params.get? q ∧ w2.aux.get? q = w1.aux.get? q) ∧
      (∀ w' : World, fusedLoop upd gradOf batch ord k N w = .ok w' →
        w'.dict = w.dict) := by
  refine ⟨rfl, ?_, ?_, ?_⟩
  · intro w1 w2 p h
    exact optimizer_hook_ok_dict upd w1 w2 p h
  · intro w1 w2 p q hd h hq
    exact hook_frame_aux upd n w1 w2 p q hd h hq
  · intro w' h
    exact fusedLoop_ok_dict upd gradOf batch ord N k w w' h

/-- Witness for C8: the two-iteration fused loop on the concrete world
leaves the mapping unchanged. -/
theorem mapping_built_once_read_only_witness :
    (setupFused 2 w2T).dict = optimizer_dict 2 := by
  obtain ⟨h1, _, _, _⟩ :=
    mapping_built_once_read_only updT gradT (fun k => Int.ofNat k) [1, 0] 2 2 0 w2T
  exact h1

/-- C5: the fused training loop body consists of exactly batch generation,
forward evaluation and the single `backward()` call; it contains no
explicit `step()` or `zero_grad()`, and every optimizer update operation in
its trace originates from a hook firing during the differentiation
traversal (after the `backward()` call). -/
theorem fused_train_no_explicit_update (ord : List Nat) :
    (fusedTrainTrace ord).take 3 =
        [(Origin.explicitCall, Op.genBatch), (Origin.explicitCall, Op.forwardEval),
          (Origin.explicitCall, Op.backwardCall)] ∧
      (∀ e ∈ fusedTrainTrace ord, isUpdateOp e.2 = true → e.1 = Origin.hookFired) ∧
      (∀ e ∈ (fusedTrainTrace ord).drop 3, e.1 = Origin.hookFired) := by
  refine ⟨rfl, ?_, ?_⟩
  · intro e he hupd
    unfold fusedTrainTrace at he
    rcases List.mem_append.mp he with hexp | hhook
    · simp only [List.mem_cons, List.not_mem_nil, or_false] at hexp
      rcases hexp with rfl | rfl | rfl
      all_goals exact absurd hupd (by decide)
    · obtain ⟨p, _, hin⟩ := List.mem_flatMap.mp hhook
      obtain ⟨o, _, rfl⟩ := List.mem_map.mp hin
      rfl
  · intro e he
    have hdrop : (fusedTrainTrace ord).drop 3 =
        ord.flatMap (fun p => (optimizer_hook_ops p).map (fun o => (Origin.hookFired, o))) :=
      rfl
    rw [hdrop] at he
    obtain ⟨p, _, hin⟩ := List.mem_flatMap.mp he
    obtain ⟨o, _, rfl⟩ := List.mem_map.mp hin
    rfl

/-- Witness for C5: in the two-parameter trace, the per-parameter `step`
operation is hook-originated. -/
theorem fused_train_no_explicit_update_witness :
    ((Origin.hookFired, Op.stepOp 0) : Origin × Op).1 = Origin.hookFired :=
  (fused_train_no_explicit_update [0, 1]).2.1 (Origin.hookFired, Op.stepOp 0)
    (by decide) (by decide)

/-- C6: each measured window (as written at module level around the three
training iterations) enables recording before the iterations, appends
exactly the iterations' allocation events to the log while enabled,
extracts the snapshot at the end of the window as a point-in-time copy of
the log at that moment, persists exactly that snapshot to the file, and
disables recording after the window. -/
theorem measured_window_brackets (allocs : List Nat) (r : RecWorld) :
    (runOps r [Op.recordStart]).enabled = true ∧
      (runOps r ([Op.recordStart] ++ trainingOps allocs)).log = r.log ++ allocs ∧
      (runOps r (measuredWindow (trainingOps allocs))).fileOut =
        some ((runOps r ([Op.recordStart] ++ trainingOps allocs)).log) ∧
      (runOps r (measuredWindow (trainingOps allocs))).fileOut = some (r.log ++ allocs) ∧
      (runOps r (measuredWindow (trainingOps allocs))).enabled = false := by
  have h1 : runOps r [Op.recordStart] = { r with enabled := true } := rfl
  have h2 : runOps r ([Op.recordStart] ++ trainingOps allocs) =
      { r with enabled := true, log := r.log ++ allocs } := by
    rw [runOps_append, h1, runOps_trainingOps { r with enabled := true } allocs rfl]
  have h3 : runOps r (measuredWindow (trainingOps allocs)) =
      runOps (runOps r ([Op.recordStart] ++ trainingOps allocs))
        [Op.snapshotExtract, Op.snapshotDump, Op.recordStop] := by
    unfold measuredWindow
    rw [← runOps_append, List.append_assoc]
  refine ⟨by rw [h1], by rw [h2], ?_, ?_, ?_⟩
  · rw [h3, h2]
    rfl
  · rw [h3, h2]
    rfl
  · rw [h3, h2]
    rfl
